import Mathlib

/-!
Verification of the dynamic-array core of `common-c-utils` (src/array.h).

`src/` holds only the headers; the bodies of the array operations live in an
`array.c` that is not part of `src/`.  Each operation below is therefore
modelled from the specification (and from the contracts written in the
doc comments of src/array.h), as a shallow embedding:

* a byte is a `Nat`;
* the allocator's memory is a `Heap`: the list of allocated regions, a
  region being identified by its allocation rank (this models distinct
  allocations as distinct, non-aliasing regions);
* a pointer is a pair (region identifier, byte offset);
* `uint32_t` arithmetic is `Nat` arithmetic reduced `% U32`;
* a fatal precondition failure (the header's "not-null assertions" /
  crash-on-misuse policy, spec section 7) is modelled as `Option.none`.
-/

namespace Car

/-- A byte of memory, modelled as a natural number. -/
abbrev Byte := Nat

/-- The contents of one contiguous allocated region. -/
abbrev Bytes := List Byte

/-- The allocator's memory: all allocated regions, indexed by allocation
rank.  A region index that was never allocated reads as the empty region. -/
abbrev Heap := List Bytes

/-- A pointer: a region identifier together with a byte offset into it. -/
abbrev Ptr := Nat × Nat

/-- The modulus of `uint32_t` arithmetic, 2^32. -/
def U32 : Nat := 4294967296

/-- The bytes of region `r` of heap `h`. -/
def region (h : Heap) (r : Nat) : Bytes := h.getD r []

/-- Read `n` bytes of region `r` starting at byte offset `off`. -/
def readBytes (h : Heap) (r off n : Nat) : Bytes :=
  ((region h r).drop off).take n

/-- Copy the bytes `p` into `buf` at byte offset `off` (a `memcpy`). -/
def writeAt (buf : Bytes) (off : Nat) (p : Bytes) : Bytes :=
  buf.take off ++ p ++ buf.drop (off + p.length)

/-- Write the bytes `p` into region `r` of the heap at byte offset `off`. -/
def writeBytes (h : Heap) (r off : Nat) (p : Bytes) : Heap :=
  h.set r (writeAt (region h r) off p)

/-- Modelled from the spec: the allocator's `procure` operation
(spec section 4.1; the concrete allocator of array.c is absent from src/).
Procuring `n` bytes appends a fresh `n`-byte region to the heap and returns
the heap together with the new region's identifier.  Fresh bytes are
indeterminate in C; the model fixes them to 0. -/
def procure (h : Heap) (n : Nat) : Heap × Nat :=
  (h ++ [List.replicate n 0], h.length)

/-- Modelled from the spec: the effect of the allocator's `resize`
operation on a region's bytes (spec section 4.1): the result has exactly
`n` bytes and preserves the first `min n (buf.length)` original bytes. -/
def resizeRegion (buf : Bytes) (n : Nat) : Bytes :=
  buf.take n ++ List.replicate (n - buf.length) 0

/-- Modelled from the spec: the allocator's `resize` applied to region `r`
of the heap, giving it exactly `n` bytes (spec section 4.1). -/
def hrealloc (h : Heap) (r n : Nat) : Heap :=
  h.set r (resizeRegion (region h r) n)

/-- The `Array` structure of src/array.h lines 87-93: logical size,
allocated capacity (both `uint32_t`), element width in bytes, and the data
buffer (here: the identifier of the heap region that holds it).  The
`allocator` field is not represented: the model has a single canonical
allocator (`procure` / `hrealloc`). -/
structure Array where
  size : Nat
  capacity : Nat
  sizeof_element : Nat
  data : Nat
  deriving DecidableEq, Repr

/-- The `ArrayIterator` structure of src/array.h lines 98-102: a borrowed
cursor (`current`), a one-past-the-last-logical-element pointer (`end` in
the C source; `end` is reserved in Lean, hence `end_`), and the stride. -/
structure ArrayIterator where
  current : Ptr
  end_ : Ptr
  sizeof_element : Nat
  deriving DecidableEq, Repr

/-- The `_CAR_ARR_DEFAULT_SIZE` constant of src/array.h line 61. -/
def _CAR_ARR_DEFAULT_SIZE : Nat := 16

/-- Modelled from the spec: body of `array_ex` (declared src/array.h:113).
Spec section 4.2 Construct: precondition `initial_capacity ≠ 0` and
`element_size > 0`, a violation being a fatal precondition failure with no
error return (`none`); on success allocates exactly
`capacity * sizeof_element` bytes and yields `size = 0`. -/
def array_ex (sizeof_element capacity : Nat) (h : Heap) :
    Option (Array × Heap) :=
  if capacity ≠ 0 ∧ 0 < sizeof_element then
    let pr := procure h (capacity * sizeof_element)
    some (⟨0, capacity, sizeof_element, pr.2⟩, pr.1)
  else
    none

/-- The `array(T, a)` convenience C macro of src/array.h line 122:
`array_ex(sizeof(T), _CAR_ARR_DEFAULT_SIZE, a)`, with the element type `T`
represented by its byte size. -/
def array (sizeof_element : Nat) (h : Heap) : Option (Array × Heap) :=
  array_ex sizeof_element _CAR_ARR_DEFAULT_SIZE h

/-- Modelled from the spec: body of `array_clone` (declared
src/array.h:130).  Spec section 4.2 Clone: identical `size`, `capacity`,
`element_size`, a freshly allocated buffer holding a byte-for-byte copy of
the source's logical elements. -/
def array_clone (a : Array) (h : Heap) : Array × Heap :=
  let pr := procure h (a.capacity * a.sizeof_element)
  (⟨a.size, a.capacity, a.sizeof_element, pr.2⟩,
    writeBytes pr.1 pr.2 0 (readBytes h a.data 0 (a.size * a.sizeof_element)))

/-- Modelled from the spec: body of `array_resize` (declared
src/array.h:141).  Spec section 4.2 Resize: sets `size = new_size`; grows
the buffer to exactly `new_size` elements when `new_size > capacity`,
otherwise leaves capacity and buffer untouched. -/
def array_resize (a : Array) (new_size : Nat) (h : Heap) : Array × Heap :=
  if a.capacity < new_size then
    (⟨new_size, new_size, a.sizeof_element, a.data⟩,
      hrealloc h a.data (new_size * a.sizeof_element))
  else
    (⟨new_size, a.capacity, a.sizeof_element, a.data⟩, h)

/-- Modelled from the spec: the growth step inside `array_append`
(spec section 4.2 Append): when `size == capacity`, the capacity becomes
`max(capacity * 2, size + 1)` in `uint32_t` arithmetic and the buffer is
grown through the allocator's resize operation. -/
def array_growIfFull (a : Array) (h : Heap) : Array × Heap :=
  if a.size = a.capacity then
    let newCap := max (a.capacity * 2 % U32) ((a.size + 1) % U32)
    (⟨a.size, newCap, a.sizeof_element, a.data⟩,
      hrealloc h a.data (newCap * a.sizeof_element))
  else
    (a, h)

/-- Modelled from the spec: body of `array_append` (declared
src/array.h:152).  Spec section 4.2 Append: grow if full, copy
`sizeof_element` bytes from the argument into the next free slot, then
increment `size` (a `uint32_t`). -/
def array_append (a : Array) (p : Bytes) (h : Heap) : Array × Heap :=
  let g := array_growIfFull a h
  (⟨(g.1.size + 1) % U32, g.1.capacity, g.1.sizeof_element, g.1.data⟩,
    writeBytes g.2 g.1.data (g.1.size * g.1.sizeof_element) p)

/-- Append each bytes list of `ps`, in order (a sequence of
`array_append` calls, used to state the spec's sequences-of-appends
properties). -/
def array_append_list (a : Array) (h : Heap) : List Bytes → Array × Heap
  | [] => (a, h)
  | p :: ps =>
    array_append_list (array_append a p h).1 (array_append a p h).2 ps

/-- Modelled from the spec: body of `array_set` (declared
src/array.h:166).  Spec section 4.2 Set: copies `element_size` bytes over
slot `i`; precondition `i < size`, violation fatal (`none`).  Only the
heap changes; the Array value itself is untouched. -/
def array_set (a : Array) (i : Nat) (p : Bytes) (h : Heap) : Option Heap :=
  if i < a.size then
    some (writeBytes h a.data (i * a.sizeof_element) p)
  else
    none

/-- Modelled from the spec: body of `array_at` (declared src/array.h:177).
Spec section 4.2 At: pointer to slot `i`; precondition `i < capacity`
(the bounds check is against capacity, not size), violation fatal
(`none`). -/
def array_at (a : Array) (i : Nat) : Option Ptr :=
  if i < a.capacity then some (a.data, i * a.sizeof_element) else none

/-- Modelled from the spec: body of `array_size` (declared
src/array.h:187): equivalent to accessing the `size` field. -/
def array_size (a : Array) : Nat := a.size

/-- Modelled from the spec: body of `array_shrink` (declared
src/array.h:194).  Spec section 4.2 Shrink: reallocates the buffer to
exactly `size * element_size` bytes, setting `capacity = size`; no-op when
already equal. -/
def array_shrink (a : Array) (h : Heap) : Array × Heap :=
  if a.capacity = a.size then
    (a, h)
  else
    (⟨a.size, a.size, a.sizeof_element, a.data⟩,
      hrealloc h a.data (a.size * a.sizeof_element))

/-- Modelled from the spec: body of `iterator` (declared
src/array.h:212).  Spec section 4.3 Create: positioned at the first
logical element, `end` a snapshot of `current + size * element_size`. -/
def iterator (a : Array) : ArrayIterator :=
  ⟨(a.data, 0), (a.data, a.size * a.sizeof_element), a.sizeof_element⟩

/-- Modelled from the spec: body of `iterator_next` (declared
src/array.h:221).  Spec section 4.3 Next: once `current == end` the result
is null (`none`); otherwise the element at `current` is returned and
`current` advances by `element_size`. -/
def iterator_next (it : ArrayIterator) : Option Ptr × ArrayIterator :=
  if it.current = it.end_ then
    (none, it)
  else
    (some it.current,
      ⟨(it.current.1, it.current.2 + it.sizeof_element), it.end_,
        it.sizeof_element⟩)

/-- The results of `m` successive `iterator_next` calls, in order. -/
def iterRun (it : ArrayIterator) : Nat → List (Option Ptr)
  | 0 => []
  | m + 1 => (iterator_next it).1 :: iterRun (iterator_next it).2 m

/-- Modelled from the spec: body of `array_combine` (declared
src/array.h:229).  Spec section 4.2 Combine: appends every logical element
of `b`, in order, to the end of `a` — equivalent to repeated Append, each
element read from `b`'s live buffer. -/
def array_combine (a : Array) (b : Array) (h : Heap) : Array × Heap :=
  (List.range b.size).foldl
    (fun st i =>
      array_append st.1
        (readBytes st.2 b.data (i * b.sizeof_element) b.sizeof_element)
        st.2)
    (a, h)

/-- Insertion of one element into a comparator-sorted list of elements
(used to model the qsort reordering of `array_sort`). -/
def insertByCmp (cmp : Bytes → Bytes → Int) (x : Bytes) :
    List Bytes → List Bytes
  | [] => [x]
  | y :: ys => if cmp x y ≤ 0 then x :: y :: ys else y :: insertByCmp cmp x ys

/-- Comparator-driven reordering of a list of elements (used to model the
qsort reordering of `array_sort`). -/
def sortByCmp (cmp : Bytes → Bytes → Int) : List Bytes → List Bytes
  | [] => []
  | x :: xs => insertByCmp cmp x (sortByCmp cmp xs)

/-- Split a byte buffer into `n` consecutive chunks of `e` bytes each. -/
def chunksOf (e n : Nat) (bs : Bytes) : List Bytes :=
  match n with
  | 0 => []
  | k + 1 => bs.take e :: chunksOf e k (bs.drop e)

/-- Modelled from the spec: body of `array_sort` (declared
src/array.h:237).  Spec section 4.2 Sort: reorders the logical elements in
place according to the three-way comparator; size, capacity and
element_size are untouched (only the heap changes). -/
def array_sort (a : Array) (cmp : Bytes → Bytes → Int) (h : Heap) : Heap :=
  writeBytes h a.data 0
    (sortByCmp cmp
      (chunksOf a.sizeof_element a.size
        (readBytes h a.data 0 (a.size * a.sizeof_element)))).flatten

/-- Well-formedness of an Array with respect to the heap: its region is
allocated and holds exactly `capacity * sizeof_element` bytes, the spec's
data-model invariants hold (`size ≤ capacity`, `capacity ≥ 1`,
`element_size > 0`), and `capacity` fits in `uint32_t`. -/
def wf (a : Array) (h : Heap) : Prop :=
  a.data < h.length ∧
  (region h a.data).length = a.capacity * a.sizeof_element ∧
  a.size ≤ a.capacity ∧
  1 ≤ a.capacity ∧
  0 < a.sizeof_element ∧
  a.capacity < U32

/-- The field-level data-model invariant of spec section 3:
`size ≤ capacity`, `capacity ≥ 1`, and `capacity` fits in `uint32_t`. -/
def inv (a : Array) : Prop :=
  a.size ≤ a.capacity ∧ 1 ≤ a.capacity ∧ a.capacity < U32

instance (a : Array) (h : Heap) : Decidable (wf a h) :=
  inferInstanceAs (Decidable (_ ∧ _ ∧ _ ∧ _ ∧ _ ∧ _))

instance (a : Array) : Decidable (inv a) :=
  inferInstanceAs (Decidable (_ ∧ _ ∧ _))

/-! Byte-level helper lemmas about the heap model. -/

theorem writeAt_length {buf p : Bytes} {off : Nat}
    (hoff : off + p.length ≤ buf.length) :
    (writeAt buf off p).length = buf.length := by
  simp [writeAt, List.length_append, List.length_take, List.length_drop]
  omega

theorem writeAt_getElem? (buf p : Bytes) (off j : Nat)
    (hoff : off ≤ buf.length) :
    (writeAt buf off p)[j]? =
      if j < off then buf[j]?
      else if j < off + p.length then p[j - off]?
      else buf[j]? := by
  have hlen : (buf.take off).length = off := by
    simp [List.length_take]; omega
  unfold writeAt
  rw [List.append_assoc]
  by_cases h1 : j < off
  · rw [List.getElem?_append_left (by omega), List.getElem?_take_of_lt h1,
      if_pos h1]
  · rw [List.getElem?_append_right (by omega), hlen, if_neg h1]
    by_cases h2 : j < off + p.length
    · rw [List.getElem?_append_left (by omega), if_pos h2]
    · rw [List.getElem?_append_right (by omega), List.getElem?_drop,
        if_neg h2]
      congr 1
      omega

theorem resizeRegion_length (buf : Bytes) (n : Nat) :
    (resizeRegion buf n).length = n := by
  simp [resizeRegion, List.length_append, List.length_take]
  omega

theorem resizeRegion_getElem? (buf : Bytes) (n j : Nat) (hn : j < n)
    (hb : j < buf.length) :
    (resizeRegion buf n)[j]? = buf[j]? := by
  unfold resizeRegion
  rw [List.getElem?_append_left (by simp [List.length_take]; omega),
    List.getElem?_take_of_lt hn]

theorem region_set_self {h : Heap} {r : Nat} (v : Bytes)
    (hr : r < h.length) :
    region (h.set r v) r = v := by
  simp [region, List.getD_eq_getElem?_getD, List.getElem?_set_self hr]

theorem region_set_ne {h : Heap} {r q : Nat} (v : Bytes) (hne : q ≠ r) :
    region (h.set r v) q = region h q := by
  simp [region, List.getD_eq_getElem?_getD,
    List.getElem?_set_ne (fun hh => hne hh.symm)]

theorem region_writeBytes_ne {h : Heap} {r q : Nat} {off : Nat} {p : Bytes}
    (hne : q ≠ r) :
    region (writeBytes h r off p) q = region h q :=
  region_set_ne _ hne

theorem region_hrealloc_ne {h : Heap} {r q n : Nat} (hne : q ≠ r) :
    region (hrealloc h r n) q = region h q :=
  region_set_ne _ hne

theorem region_concat_ne {h : Heap} {q : Nat} (v : Bytes)
    (hne : q ≠ h.length) :
    region (h ++ [v]) q = region h q := by
  by_cases hq : q < h.length
  · simp [region, List.getD_eq_getElem?_getD, List.getElem?_append_left hq]
  · have h1 : (h ++ [v]).length ≤ q := by simp [List.length_append]; omega
    simp [region, List.getD_eq_getElem?_getD, List.getElem?_eq_none h1,
      List.getElem?_eq_none (by omega : h.length ≤ q)]

theorem region_concat_self (h : Heap) (v : Bytes) :
    region (h ++ [v]) h.length = v := by
  simp [region, List.getD_eq_getElem?_getD, List.getElem?_concat_length]

theorem length_writeBytes (h : Heap) (r off : Nat) (p : Bytes) :
    (writeBytes h r off p).length = h.length := by
  simp [writeBytes]

theorem length_hrealloc (h : Heap) (r n : Nat) :
    (hrealloc h r n).length = h.length := by
  simp [hrealloc]

theorem region_writeBytes_self {h : Heap} {r : Nat} (off : Nat) (p : Bytes)
    (hr : r < h.length) :
    region (writeBytes h r off p) r = writeAt (region h r) off p :=
  region_set_self _ hr

theorem region_hrealloc_self {h : Heap} {r : Nat} (n : Nat)
    (hr : r < h.length) :
    region (hrealloc h r n) r = resizeRegion (region h r) n :=
  region_set_self _ hr

theorem slice_congr {l₁ l₂ : Bytes} {off n : Nat}
    (hag : ∀ j, off ≤ j → j < off + n → l₁[j]? = l₂[j]?) :
    (l₁.drop off).take n = (l₂.drop off).take n := by
  apply List.ext_getElem?
  intro i
  rw [List.getElem?_take, List.getElem?_take]
  split
  · rw [List.getElem?_drop, List.getElem?_drop]
    exact hag (off + i) (by omega) (by omega)
  · rfl

theorem readBytes_congr {h h2 : Heap} {r off n : Nat}
    (hag : ∀ j, off ≤ j → j < off + n →
      (region h2 r)[j]? = (region h r)[j]?) :
    readBytes h2 r off n = readBytes h r off n :=
  slice_congr hag

theorem readBytes_eq_of_getElem? {h : Heap} {r off : Nat} {p : Bytes}
    (hag : ∀ j, j < p.length → (region h r)[off + j]? = p[j]?) :
    readBytes h r off p.length = p := by
  apply List.ext_getElem?
  intro i
  rw [readBytes, List.getElem?_take]
  split
  · rw [List.getElem?_drop]
    exact hag i (by omega)
  · exact (List.getElem?_eq_none (by omega)).symm

/-! Behaviour of a single `array_append`. -/

theorem array_growIfFull_spec (a : Array) (h : Heap)
    (hw : wf a h) (hs1 : a.size + 1 < U32) :
    (array_growIfFull a h).1.size = a.size ∧
    (array_growIfFull a h).1.sizeof_element = a.sizeof_element ∧
    (array_growIfFull a h).1.data = a.data ∧
    a.size + 1 ≤ (array_growIfFull a h).1.capacity ∧
    a.capacity ≤ (array_growIfFull a h).1.capacity ∧
    (array_growIfFull a h).1.capacity < U32 ∧
    (array_growIfFull a h).2.length = h.length ∧
    (region (array_growIfFull a h).2 a.data).length =
      (array_growIfFull a h).1.capacity * a.sizeof_element ∧
    (∀ j, j < a.capacity * a.sizeof_element →
      (region (array_growIfFull a h).2 a.data)[j]? = (region h a.data)[j]?) ∧
    (∀ q, q ≠ a.data → region (array_growIfFull a h).2 q = region h q) := by
  obtain ⟨hd, hr, hsc, hc1, he, hcU⟩ := hw
  unfold array_growIfFull
  by_cases hfull : a.size = a.capacity
  · have hmod : (a.size + 1) % U32 = a.size + 1 := Nat.mod_eq_of_lt hs1
    have hcap1 : a.size + 1 ≤ max (a.capacity * 2 % U32) ((a.size + 1) % U32) := by
      rw [hmod]; exact Nat.le_max_right _ _
    have hcap2 : a.capacity ≤ max (a.capacity * 2 % U32) ((a.size + 1) % U32) := by
      omega
    have hcapU : max (a.capacity * 2 % U32) ((a.size + 1) % U32) < U32 := by
      have h2 : a.capacity * 2 % U32 < U32 := Nat.mod_lt _ (by norm_num [U32])
      have h3 : (a.size + 1) % U32 < U32 := Nat.mod_lt _ (by norm_num [U32])
      omega
    rw [if_pos hfull]
    refine ⟨rfl, rfl, rfl, hcap1, hcap2, hcapU, length_hrealloc h _ _, ?_, ?_, ?_⟩
    · rw [region_hrealloc_self _ hd, resizeRegion_length]
    · intro j hj
      rw [region_hrealloc_self _ hd]
      exact resizeRegion_getElem? _ _ _
        (by calc j < a.capacity * a.sizeof_element := hj
              _ ≤ _ := Nat.mul_le_mul_right _ hcap2)
        (by omega)
    · intro q hq
      exact region_hrealloc_ne hq
  · rw [if_neg hfull]
    refine ⟨rfl, rfl, rfl, ?_, Nat.le_refl _, hcU, rfl, hr,
      fun j _ => rfl, fun q _ => rfl⟩
    show a.size + 1 ≤ a.capacity
    omega

theorem readBytes_eq_of_getElem2 {h : Heap} {r off n : Nat} {p : Bytes}
    (hn : n = p.length)
    (hag : ∀ j, j < p.length → (region h r)[off + j]? = p[j]?) :
    readBytes h r off n = p := by
  subst hn
  exact readBytes_eq_of_getElem? hag

theorem array_append_spec (a : Array) (p : Bytes) (h : Heap)
    (hw : wf a h) (hp : p.length = a.sizeof_element)
    (hs1 : a.size + 1 < U32) :
    (array_append a p h).1.size = a.size + 1 ∧
    (array_append a p h).1.sizeof_element = a.sizeof_element ∧
    (array_append a p h).1.data = a.data ∧
    a.capacity ≤ (array_append a p h).1.capacity ∧
    wf (array_append a p h).1 (array_append a p h).2 ∧
    (array_append a p h).2.length = h.length ∧
    (∀ j, j < a.size * a.sizeof_element →
      (region (array_append a p h).2 a.data)[j]? = (region h a.data)[j]?) ∧
    readBytes (array_append a p h).2 a.data
      (a.size * a.sizeof_element) a.sizeof_element = p ∧
    (∀ q, q ≠ a.data → region (array_append a p h).2 q = region h q) := by
  obtain ⟨hgs, hge, hgd, hgc1, hgc2, hgcU, hglen, hgrlen, hgpt, hgother⟩ :=
    array_growIfFull_spec a h hw hs1
  obtain ⟨hd, hr, hsc, hc1, he, hcU⟩ := hw
  set g := array_growIfFull a h with hg
  have hmod : (g.1.size + 1) % U32 = a.size + 1 := by
    rw [hgs, Nat.mod_eq_of_lt hs1]
  have hoff : a.size * a.sizeof_element + p.length ≤
      (region g.2 a.data).length := by
    rw [hgrlen, hp, ← Nat.succ_mul]
    exact Nat.mul_le_mul hgc1 (Nat.le_refl _)
  have hdglen : a.data < g.2.length := by omega
  have hreg : region (array_append a p h).2 a.data =
      writeAt (region g.2 a.data) (a.size * a.sizeof_element) p := by
    show region (writeBytes g.2 g.1.data (g.1.size * g.1.sizeof_element) p)
      a.data = _
    rw [hgd, hgs, hge, region_writeBytes_self _ _ hdglen]
  have hheaplen : (array_append a p h).2.length = h.length := by
    show (writeBytes g.2 g.1.data (g.1.size * g.1.sizeof_element) p).length =
      h.length
    rw [length_writeBytes]
    exact hglen
  refine ⟨hmod, hge, hgd, hgc2, ?_, hheaplen, ?_, ?_, ?_⟩
  · refine ⟨?_, ?_, ?_, ?_, ?_, ?_⟩
    · show g.1.data < (array_append a p h).2.length
      rw [hheaplen, hgd]
      exact hd
    · show (region (array_append a p h).2 g.1.data).length =
        g.1.capacity * g.1.sizeof_element
      rw [hgd, hge, hreg, writeAt_length hoff, hgrlen]
    · show (g.1.size + 1) % U32 ≤ g.1.capacity
      rw [hmod]
      exact hgc1
    · show 1 ≤ g.1.capacity
      omega
    · show 0 < g.1.sizeof_element
      omega
    · show g.1.capacity < U32
      exact hgcU
  · intro j hj
    have hoffle : a.size * a.sizeof_element ≤ (region g.2 a.data).length := by
      omega
    rw [hreg, writeAt_getElem? _ _ _ _ hoffle, if_pos hj]
    exact hgpt j (lt_of_lt_of_le hj (Nat.mul_le_mul hsc (Nat.le_refl _)))
  · apply readBytes_eq_of_getElem2 hp.symm
    intro j hj
    have hoffle : a.size * a.sizeof_element ≤ (region g.2 a.data).length := by
      omega
    rw [hreg, writeAt_getElem? _ _ _ _ hoffle, if_neg (by omega),
      if_pos (by omega)]
    congr 1
    omega
  · intro q hq
    calc region (array_append a p h).2 q
        = region g.2 q := by
          show region
            (writeBytes g.2 g.1.data (g.1.size * g.1.sizeof_element) p) q = _
          rw [hgd]
          exact region_writeBytes_ne hq
      _ = region h q := hgother q hq

/-! Behaviour of a sequence of `array_append` calls. -/

theorem array_append_list_spec (ps : List Bytes) :
    ∀ (a : Array) (h : Heap), wf a h →
    (∀ p ∈ ps, p.length = a.sizeof_element) →
    a.size + ps.length < U32 →
    (array_append_list a h ps).1.size = a.size + ps.length ∧
    (array_append_list a h ps).1.sizeof_element = a.sizeof_element ∧
    (array_append_list a h ps).1.data = a.data ∧
    wf (array_append_list a h ps).1 (array_append_list a h ps).2 ∧
    (array_append_list a h ps).2.length = h.length ∧
    (∀ j, j < a.size * a.sizeof_element →
      (region (array_append_list a h ps).2 a.data)[j]? =
        (region h a.data)[j]?) ∧
    (∀ k, k < ps.length →
      readBytes (array_append_list a h ps).2 a.data
        ((a.size + k) * a.sizeof_element) a.sizeof_element = ps.getD k []) ∧
    (∀ q, q ≠ a.data →
      region (array_append_list a h ps).2 q = region h q) := by
  induction ps with
  | nil =>
    intro a h hw _ _
    exact ⟨rfl, rfl, rfl, hw, rfl, fun j _ => rfl,
      fun k hk => absurd hk (Nat.not_lt_zero k), fun q _ => rfl⟩
  | cons p ps ih =>
    intro a h hw hlen hov
    have hp : p.length = a.sizeof_element := hlen p (by simp)
    have hcons : (p :: ps).length = ps.length + 1 := List.length_cons p ps
    have hs1 : a.size + 1 < U32 := by omega
    obtain ⟨has, hae, had, hac, hawf, halen, hapt, haread, haother⟩ :=
      array_append_spec a p h hw hp hs1
    set st := array_append a p h with hst
    have hlen2 : ∀ q ∈ ps, q.length = st.1.sizeof_element := by
      intro q hq
      rw [hae]
      exact hlen q (by simp [hq])
    have hov2 : st.1.size + ps.length < U32 := by omega
    obtain ⟨ihs, ihe, ihd, ihwf, ihlen, ihpt, ihread, ihother⟩ :=
      ih st.1 st.2 hawf hlen2 hov2
    rw [had] at ihd ihpt ihread ihother
    rw [hae] at ihe ihpt ihread
    rw [has] at ihs ihpt ihread
    have hunfold : array_append_list a h (p :: ps) =
        array_append_list st.1 st.2 ps := rfl
    rw [hunfold]
    have hmul : a.size * a.sizeof_element + a.sizeof_element =
        (a.size + 1) * a.sizeof_element := (Nat.succ_mul _ _).symm
    refine ⟨?_, ihe, ihd, ihwf, ?_, ?_, ?_, ?_⟩
    · rw [ihs]
      omega
    · rw [ihlen, halen]
    · intro j hj
      have hmono : a.size * a.sizeof_element ≤
          (a.size + 1) * a.sizeof_element :=
        Nat.mul_le_mul (Nat.le_succ _) (Nat.le_refl _)
      rw [ihpt j (by omega), hapt j hj]
    · intro k hk
      cases k with
      | zero =>
        have hcong : readBytes (array_append_list st.1 st.2 ps).2 a.data
            (a.size * a.sizeof_element) a.sizeof_element =
            readBytes st.2 a.data
              (a.size * a.sizeof_element) a.sizeof_element := by
          apply readBytes_congr
          intro j hj1 hj2
          exact ihpt j (by omega)
        simp only [Nat.add_zero, List.getD_cons_zero]
        rw [hcong]
        exact haread
      | succ k2 =>
        have heq : a.size + (k2 + 1) = a.size + 1 + k2 := by omega
        rw [heq, List.getD_cons_succ]
        exact ihread k2 (by omega)
    · intro q hq
      rw [ihother q hq, haother q hq]

/-! Field-level behaviour: the spec's data-model invariants (section 3). -/

theorem array_growIfFull_pos (a : Array) (h : Heap)
    (hfull : a.size = a.capacity) :
    array_growIfFull a h =
      (⟨a.size, max (a.capacity * 2 % U32) ((a.size + 1) % U32),
          a.sizeof_element, a.data⟩,
        hrealloc h a.data
          (max (a.capacity * 2 % U32) ((a.size + 1) % U32) *
            a.sizeof_element)) := by
  unfold array_growIfFull
  rw [if_pos hfull]

theorem array_growIfFull_neg (a : Array) (h : Heap)
    (hfull : ¬a.size = a.capacity) :
    array_growIfFull a h = (a, h) := by
  unfold array_growIfFull
  rw [if_neg hfull]

theorem array_append_fst (a : Array) (p : Bytes) (h : Heap) :
    (array_append a p h).1 =
      ⟨((array_growIfFull a h).1.size + 1) % U32,
        (array_growIfFull a h).1.capacity,
        (array_growIfFull a h).1.sizeof_element,
        (array_growIfFull a h).1.data⟩ := rfl

theorem array_append_inv (a : Array) (p : Bytes) (h : Heap) (hi : inv a) :
    inv (array_append a p h).1 ∧
    (array_append a p h).1.sizeof_element = a.sizeof_element := by
  obtain ⟨hsc, hc1, hcU⟩ := hi
  simp only [U32] at hcU
  by_cases hfull : a.size = a.capacity
  · simp only [array_append_fst, array_growIfFull_pos a h hfull, inv, U32,
      and_true]
    omega
  · simp only [array_append_fst, array_growIfFull_neg a h hfull, inv, U32,
      and_true]
    omega

theorem array_resize_inv (a : Array) (n : Nat) (h : Heap) (hi : inv a)
    (hn : n < U32) :
    inv (array_resize a n h).1 ∧
    (array_resize a n h).1.sizeof_element = a.sizeof_element := by
  obtain ⟨hsc, hc1, hcU⟩ := hi
  simp only [U32] at hcU hn
  unfold array_resize
  by_cases hc : a.capacity < n
  · rw [if_pos hc]
    simp only [inv, U32, and_true]
    omega
  · rw [if_neg hc]
    simp only [inv, U32, and_true]
    omega

theorem array_clone_inv (a : Array) (h : Heap) (hi : inv a) :
    inv (array_clone a h).1 ∧
    (array_clone a h).1.sizeof_element = a.sizeof_element :=
  ⟨hi, rfl⟩

theorem array_shrink_inv (a : Array) (h : Heap) (hi : inv a) :
    (array_shrink a h).1.size ≤ (array_shrink a h).1.capacity ∧
    (array_shrink a h).1.capacity < U32 ∧
    (array_shrink a h).1.sizeof_element = a.sizeof_element ∧
    (1 ≤ a.size → 1 ≤ (array_shrink a h).1.capacity) := by
  obtain ⟨hsc, hc1, hcU⟩ := hi
  unfold array_shrink
  by_cases heq : a.capacity = a.size
  · rw [if_pos heq]
    exact ⟨hsc, hcU, rfl, fun _ => hc1⟩
  · rw [if_neg heq]
    refine ⟨Nat.le_refl _, ?_, rfl, fun h1 => h1⟩
    show a.size < U32
    omega

theorem array_combine_inv (a b : Array) (h : Heap) (hi : inv a) :
    inv (array_combine a b h).1 ∧
    (array_combine a b h).1.sizeof_element = a.sizeof_element := by
  unfold array_combine
  generalize List.range b.size = l
  induction l generalizing a h with
  | nil => exact ⟨hi, rfl⟩
  | cons x xs ih =>
    simp only [List.foldl_cons]
    obtain ⟨h1, h2⟩ := array_append_inv a
      (readBytes h b.data (x * b.sizeof_element) b.sizeof_element) h hi
    obtain ⟨h3, h4⟩ := ih
      (array_append a
        (readBytes h b.data (x * b.sizeof_element) b.sizeof_element) h).1
      (array_append a
        (readBytes h b.data (x * b.sizeof_element) b.sizeof_element) h).2 h1
    exact ⟨h3, by rw [h4, h2]⟩

/-! The claims. -/

/-- C1: on a fresh Array produced by Construct, a sequence of `n` Appends
(each passing `element_size` bytes) leaves `Size = n`, and for every
`i < n`, At(i) succeeds and the pointer it returns holds exactly the bytes
that were passed to the `i`-th Append, in order. -/
theorem claim_C1_append_then_at (e c : Nat) (h0 h : Heap) (a : Array)
    (ps : List Bytes)
    (hex : array_ex e c h0 = some (a, h))
    (hc32 : c < U32)
    (hlen : ∀ p ∈ ps, p.length = e)
    (hn : ps.length < U32) :
    array_size (array_append_list a h ps).1 = ps.length ∧
    ∀ i, i < ps.length →
      ∃ pt, array_at (array_append_list a h ps).1 i = some pt ∧
        readBytes (array_append_list a h ps).2 pt.1 pt.2 e = ps.getD i [] := by
  have hfacts : wf a h ∧ a.size = 0 ∧ a.sizeof_element = e := by
    unfold array_ex at hex
    split at hex
    · next hcond =>
      simp only [Option.some.injEq, Prod.mk.injEq] at hex
      obtain ⟨ha, hh⟩ := hex
      subst ha
      subst hh
      refine ⟨⟨?_, ?_, ?_, ?_, ?_, ?_⟩, rfl, rfl⟩
      · show h0.length < (h0 ++ [List.replicate (c * e) 0]).length
        simp
      · show (region (h0 ++ [List.replicate (c * e) 0]) h0.length).length =
          c * e
        rw [region_concat_self, List.length_replicate]
      · show 0 ≤ c
        omega
      · show 1 ≤ c
        omega
      · exact hcond.2
      · exact hc32
    · exact absurd hex (by simp)
  obtain ⟨hwf, hsz0, hse⟩ := hfacts
  obtain ⟨hs, he2, hd, hwf2, _, _, hread, _⟩ :=
    array_append_list_spec ps a h hwf (by rw [hse]; exact hlen) (by omega)
  obtain ⟨_, _, hsc2, _, _, _⟩ := hwf2
  constructor
  · show (array_append_list a h ps).1.size = ps.length
    omega
  · intro i hi
    refine ⟨((array_append_list a h ps).1.data, i * e), ?_, ?_⟩
    · unfold array_at
      rw [if_pos (by omega), he2, hse]
    · rw [hd]
      have hr := hread i hi
      rw [hsz0, hse] at hr
      simpa using hr

/-- C1 witness: two appends of one-byte elements onto a fresh
one-capacity array of element size one. -/
theorem claim_C1_append_then_at_witness :
    array_size (array_append_list ⟨0, 1, 1, 0⟩ [[0]] [[7], [9]]).1 = 2 ∧
    ∀ i, i < 2 →
      ∃ pt, array_at (array_append_list ⟨0, 1, 1, 0⟩ [[0]] [[7], [9]]).1 i =
          some pt ∧
        readBytes (array_append_list ⟨0, 1, 1, 0⟩ [[0]] [[7], [9]]).2
          pt.1 pt.2 1 = [[7], [9]].getD i [] := by
  have hr := claim_C1_append_then_at 1 1 [] [[0]] ⟨0, 1, 1, 0⟩ [[7], [9]]
    (by decide) (by decide) (by decide) (by decide)
  simpa using hr

/-- C2: for every element size `e > 0` and capacity `c > 0`, Construct
(`array_ex`) returns an Array with `size = 0`, `capacity = c` and element
size `e`, whose buffer is exactly `c * e` bytes; violating either
precondition is a fatal precondition failure with no error return
(modelled as `none`). -/
theorem claim_C2_construct (e c : Nat) (h : Heap) :
    (∀ a h2, array_ex e c h = some (a, h2) →
      array_size a = 0 ∧ a.capacity = c ∧ a.sizeof_element = e ∧
      (region h2 a.data).length = c * e) ∧
    (0 < e → 0 < c → ∃ a h2, array_ex e c h = some (a, h2)) ∧
    (e = 0 ∨ c = 0 → array_ex e c h = none) := by
  refine ⟨?_, ?_, ?_⟩
  · intro a h2 hex
    unfold array_ex at hex
    split at hex
    · next hcond =>
      simp only [Option.some.injEq, Prod.mk.injEq] at hex
      obtain ⟨ha, hh⟩ := hex
      subst ha
      subst hh
      refine ⟨rfl, rfl, rfl, ?_⟩
      show (region (h ++ [List.replicate (c * e) 0]) h.length).length = c * e
      rw [region_concat_self, List.length_replicate]
    · exact absurd hex (by simp)
  · intro he hc
    refine ⟨⟨0, c, e, h.length⟩, h ++ [List.replicate (c * e) 0], ?_⟩
    unfold array_ex
    rw [if_pos ⟨by omega, he⟩]
    rfl
  · intro hor
    unfold array_ex
    rw [if_neg ?_]
    rintro ⟨hc, he⟩
    rcases hor with h1 | h1 <;> omega

/-- C2 witness: element size 1 and capacity 2 on the empty heap, and the
two fatal precondition violations. -/
theorem claim_C2_construct_witness :
    (array_size ⟨0, 2, 1, 0⟩ = 0 ∧ (⟨0, 2, 1, 0⟩ : Array).capacity = 2 ∧
      (⟨0, 2, 1, 0⟩ : Array).sizeof_element = 1 ∧
      (region [[0, 0]] 0).length = 2 * 1) ∧
    (∃ a h2, array_ex 1 2 [] = some (a, h2)) ∧
    array_ex 0 2 [] = none ∧ array_ex 1 0 [] = none :=
  ⟨(claim_C2_construct 1 2 []).1 ⟨0, 2, 1, 0⟩ [[0, 0]] (by decide),
   (claim_C2_construct 1 2 []).2.1 (by decide) (by decide),
   (claim_C2_construct 0 2 []).2.2 (Or.inl rfl),
   (claim_C2_construct 1 0 []).2.2 (Or.inr rfl)⟩

/-- C4: if `size == capacity` immediately before an Append, the capacity
afterwards is `max(capacity * 2, size + 1)` computed in unsigned 32-bit
arithmetic; if `size < capacity`, the Append leaves capacity unchanged. -/
theorem claim_C4_append_growth (a : Array) (p : Bytes) (h : Heap) :
    (a.size = a.capacity →
      (array_append a p h).1.capacity =
        max (a.capacity * 2 % U32) ((a.size + 1) % U32)) ∧
    (a.size < a.capacity → (array_append a p h).1.capacity = a.capacity) := by
  constructor
  · intro hfull
    rw [array_append_fst, array_growIfFull_pos a h hfull]
  · intro hlt
    rw [array_append_fst, array_growIfFull_neg a h (by omega)]

/-- C4 witness: appending to a full array of capacity 2 doubles the
capacity; appending to a non-full one keeps it. -/
theorem claim_C4_append_growth_witness :
    (array_append ⟨2, 2, 1, 0⟩ [5] [[0, 0]]).1.capacity =
      max (2 * 2 % U32) ((2 + 1) % U32) ∧
    (array_append ⟨1, 2, 1, 0⟩ [5] [[0, 0]]).1.capacity = 2 :=
  ⟨(claim_C4_append_growth ⟨2, 2, 1, 0⟩ [5] [[0, 0]]).1 rfl,
   (claim_C4_append_growth ⟨1, 2, 1, 0⟩ [5] [[0, 0]]).2 (by decide)⟩

/-- C5: At is non-fatal and returns the pointer to slot `i` for every
`i < capacity` (even when `size ≤ i < capacity`), Set is fatal for every
`i ≥ size`, and for `i ≥ capacity` neither succeeds. -/
theorem claim_C5_at_capacity_set_size (a : Array) (i : Nat) (p : Bytes)
    (h : Heap) (hsc : a.size ≤ a.capacity) :
    (i < a.capacity → array_at a i = some (a.data, i * a.sizeof_element)) ∧
    (a.size ≤ i → array_set a i p h = none) ∧
    (a.capacity ≤ i → array_at a i = none ∧ array_set a i p h = none) := by
  refine ⟨?_, ?_, ?_⟩
  · intro hi
    unfold array_at
    rw [if_pos hi]
  · intro hi
    unfold array_set
    rw [if_neg (by omega)]
  · intro hi
    constructor
    · unfold array_at
      rw [if_neg (by omega)]
    · unfold array_set
      rw [if_neg (by omega)]

/-- C5 witness: an array with size 1, capacity 2: At succeeds at index 1
(an allocated but logically unset slot) while Set is fatal there, and both
are fatal at index 2. -/
theorem claim_C5_at_capacity_set_size_witness :
    array_at ⟨1, 2, 1, 0⟩ 1 = some (0, 1 * 1) ∧
    array_set ⟨1, 2, 1, 0⟩ 1 [9] [[7, 0]] = none ∧
    (array_at ⟨1, 2, 1, 0⟩ 2 = none ∧
      array_set ⟨1, 2, 1, 0⟩ 2 [9] [[7, 0]] = none) :=
  ⟨(claim_C5_at_capacity_set_size ⟨1, 2, 1, 0⟩ 1 [9] [[7, 0]]
      (by decide)).1 (by decide),
   (claim_C5_at_capacity_set_size ⟨1, 2, 1, 0⟩ 1 [9] [[7, 0]]
      (by decide)).2.1 (by decide),
   (claim_C5_at_capacity_set_size ⟨1, 2, 1, 0⟩ 2 [9] [[7, 0]]
      (by decide)).2.2 (by decide)⟩

/-- C6: Resize always sets `size = new_size`; when `new_size > capacity`
the capacity becomes exactly `new_size` (capacity equals size, no
headroom); when `new_size ≤ capacity` the capacity and the whole heap
(hence the buffer contents) are unchanged. -/
theorem claim_C6_resize (a : Array) (n : Nat) (h : Heap) :
    array_size (array_resize a n h).1 = n ∧
    (array_resize a n h).1.sizeof_element = a.sizeof_element ∧
    (array_resize a n h).1.data = a.data ∧
    (a.capacity < n → (array_resize a n h).1.capacity = n) ∧
    (n ≤ a.capacity →
      (array_resize a n h).1.capacity = a.capacity ∧
      (array_resize a n h).2 = h) := by
  unfold array_resize array_size
  by_cases hc : a.capacity < n
  · rw [if_pos hc]
    exact ⟨rfl, rfl, rfl, fun _ => rfl, fun hn => absurd hc (by omega)⟩
  · rw [if_neg hc]
    exact ⟨rfl, rfl, rfl, fun hn => absurd hn hc, fun _ => ⟨rfl, rfl⟩⟩

/-- C6 witness: growing resize from capacity 1 to 2, and shrinking-size
resize from size 1 to 0 leaving capacity and heap alone. -/
theorem claim_C6_resize_witness :
    array_size (array_resize ⟨0, 1, 1, 0⟩ 2 [[0]]).1 = 2 ∧
    (array_resize ⟨0, 1, 1, 0⟩ 2 [[0]]).1.capacity = 2 ∧
    ((array_resize ⟨1, 2, 1, 0⟩ 0 [[5, 0]]).1.capacity = 2 ∧
      (array_resize ⟨1, 2, 1, 0⟩ 0 [[5, 0]]).2 = [[5, 0]]) :=
  ⟨(claim_C6_resize ⟨0, 1, 1, 0⟩ 2 [[0]]).1,
   (claim_C6_resize ⟨0, 1, 1, 0⟩ 2 [[0]]).2.2.2.1 (by decide),
   (claim_C6_resize ⟨1, 2, 1, 0⟩ 0 [[5, 0]]).2.2.2.2 (by decide)⟩

/-- C10: the `array(T, a)` convenience macro is `array_ex(sizeof(T), 16,
a)`: it produces element size `sizeof(T)` and initial capacity 16, the
value of `_CAR_ARR_DEFAULT_SIZE`. -/
theorem claim_C10_default_construct (e : Nat) (h : Heap) :
    array e h = array_ex e _CAR_ARR_DEFAULT_SIZE h ∧
    _CAR_ARR_DEFAULT_SIZE = 16 ∧
    (0 < e → ∃ a h2, array e h = some (a, h2) ∧
      a.sizeof_element = e ∧ a.capacity = 16 ∧ array_size a = 0) := by
  refine ⟨rfl, rfl, ?_⟩
  intro he
  refine ⟨⟨0, 16, e, h.length⟩, h ++ [List.replicate (16 * e) 0], ?_, rfl,
    rfl, rfl⟩
  show array_ex e 16 h = _
  unfold array_ex
  rw [if_pos ⟨by omega, he⟩]
  rfl

/-- C10 witness: the macro at element size 1 on the empty heap. -/
theorem claim_C10_default_construct_witness :
    array 1 [] = array_ex 1 _CAR_ARR_DEFAULT_SIZE [] ∧
    _CAR_ARR_DEFAULT_SIZE = 16 ∧
    (∃ a h2, array 1 [] = some (a, h2) ∧
      a.sizeof_element = 1 ∧ a.capacity = 16 ∧ array_size a = 0) := by
  have hr := claim_C10_default_construct 1 []
  exact ⟨hr.1, hr.2.1, hr.2.2 (by decide)⟩

/-- C3 counterexample: Shrink applied to an empty Array that satisfies the
data-model invariant (size 0, capacity 1, element size 1) produces
capacity 0, so Shrink does not preserve `capacity ≥ 1` as the claim
states. -/
theorem claim_C3_counterexample :
    inv ⟨0, 1, 1, 0⟩ ∧
    (array_shrink ⟨0, 1, 1, 0⟩ [[0]]).1.capacity = 0 := by
  decide

/-- C3 (amended): Construct establishes the invariants, and every
operation preserves `capacity ≥ size` and leaves `element_size` unchanged;
every operation except Shrink also preserves `capacity ≥ 1`, while Shrink
sets `capacity = size`, which is `≥ 1` only when the array is non-empty.
Set and Sort return only a new heap, leaving every Array field untouched
by construction, so they are not listed. -/
theorem claim_C3_invariants :
    (∀ e c h a h2, array_ex e c h = some (a, h2) → c < U32 →
      inv a ∧ a.sizeof_element = e) ∧
    (∀ a h, inv a → inv (array_clone a h).1 ∧
      (array_clone a h).1.sizeof_element = a.sizeof_element) ∧
    (∀ a n h, inv a → n < U32 → inv (array_resize a n h).1 ∧
      (array_resize a n h).1.sizeof_element = a.sizeof_element) ∧
    (∀ a p h, inv a → inv (array_append a p h).1 ∧
      (array_append a p h).1.sizeof_element = a.sizeof_element) ∧
    (∀ a h, inv a →
      (array_shrink a h).1.size ≤ (array_shrink a h).1.capacity ∧
      (array_shrink a h).1.capacity < U32 ∧
      (array_shrink a h).1.sizeof_element = a.sizeof_element ∧
      (1 ≤ a.size → 1 ≤ (array_shrink a h).1.capacity)) ∧
    (∀ a b h, inv a → inv (array_combine a b h).1 ∧
      (array_combine a b h).1.sizeof_element = a.sizeof_element) := by
  refine ⟨?_, array_clone_inv, array_resize_inv, array_append_inv,
    array_shrink_inv, array_combine_inv⟩
  intro e c h a h2 hex hc32
  unfold array_ex at hex
  split at hex
  · next hcond =>
    simp only [Option.some.injEq, Prod.mk.injEq] at hex
    obtain ⟨ha, _⟩ := hex
    subst ha
    refine ⟨⟨?_, ?_, hc32⟩, rfl⟩
    · show 0 ≤ c
      omega
    · show 1 ≤ c
      omega
  · exact absurd hex (by simp)

/-- C3 witness: the amended invariant-preservation statement applied to
concrete arrays for every operation. -/
theorem claim_C3_invariants_witness :
    (inv ⟨0, 2, 1, 0⟩ ∧ (⟨0, 2, 1, 0⟩ : Array).sizeof_element = 1) ∧
    (inv (array_clone ⟨0, 2, 1, 0⟩ [[0, 0]]).1 ∧
      (array_clone ⟨0, 2, 1, 0⟩ [[0, 0]]).1.sizeof_element =
        (⟨0, 2, 1, 0⟩ : Array).sizeof_element) ∧
    (inv (array_resize ⟨0, 2, 1, 0⟩ 1 [[0, 0]]).1 ∧
      (array_resize ⟨0, 2, 1, 0⟩ 1 [[0, 0]]).1.sizeof_element =
        (⟨0, 2, 1, 0⟩ : Array).sizeof_element) ∧
    (inv (array_append ⟨0, 2, 1, 0⟩ [7] [[0, 0]]).1 ∧
      (array_append ⟨0, 2, 1, 0⟩ [7] [[0, 0]]).1.sizeof_element =
        (⟨0, 2, 1, 0⟩ : Array).sizeof_element) ∧
    ((array_shrink ⟨1, 2, 1, 0⟩ [[7, 0]]).1.size ≤
        (array_shrink ⟨1, 2, 1, 0⟩ [[7, 0]]).1.capacity ∧
      (array_shrink ⟨1, 2, 1, 0⟩ [[7, 0]]).1.capacity < U32 ∧
      (array_shrink ⟨1, 2, 1, 0⟩ [[7, 0]]).1.sizeof_element =
        (⟨1, 2, 1, 0⟩ : Array).sizeof_element ∧
      (1 ≤ (⟨1, 2, 1, 0⟩ : Array).size →
        1 ≤ (array_shrink ⟨1, 2, 1, 0⟩ [[7, 0]]).1.capacity)) ∧
    (inv (array_combine ⟨0, 2, 1, 0⟩ ⟨1, 1, 1, 1⟩ [[0, 0], [5]]).1 ∧
      (array_combine ⟨0, 2, 1, 0⟩ ⟨1, 1, 1, 1⟩ [[0, 0], [5]]).1.sizeof_element =
        (⟨0, 2, 1, 0⟩ : Array).sizeof_element) :=
  ⟨claim_C3_invariants.1 1 2 [] ⟨0, 2, 1, 0⟩ [[0, 0]] (by decide) (by decide),
   claim_C3_invariants.2.1 ⟨0, 2, 1, 0⟩ [[0, 0]] (by decide),
   claim_C3_invariants.2.2.1 ⟨0, 2, 1, 0⟩ 1 [[0, 0]] (by decide) (by decide),
   claim_C3_invariants.2.2.2.1 ⟨0, 2, 1, 0⟩ [7] [[0, 0]] (by decide),
   claim_C3_invariants.2.2.2.2.1 ⟨1, 2, 1, 0⟩ [[7, 0]] (by decide),
   claim_C3_invariants.2.2.2.2.2 ⟨0, 2, 1, 0⟩ ⟨1, 1, 1, 1⟩ [[0, 0], [5]]
     (by decide)⟩

/-! Frame lemmas: each mutating operation touches only its own Array's
region of the heap. -/

theorem array_growIfFull_data (a : Array) (h : Heap) :
    (array_growIfFull a h).1.data = a.data := by
  unfold array_growIfFull
  split <;> rfl

theorem array_growIfFull_other {a : Array} {h : Heap} {q : Nat}
    (hq : q ≠ a.data) :
    region (array_growIfFull a h).2 q = region h q := by
  unfold array_growIfFull
  split
  · exact region_hrealloc_ne hq
  · rfl

theorem array_set_other {a : Array} {i : Nat} {p : Bytes} {h h2 : Heap}
    {q : Nat} (hq : q ≠ a.data) (hs : array_set a i p h = some h2) :
    region h2 q = region h q := by
  unfold array_set at hs
  split at hs
  · simp only [Option.some.injEq] at hs
    subst hs
    exact region_writeBytes_ne hq
  · exact absurd hs (by simp)

theorem array_append_other {a : Array} {p : Bytes} {h : Heap} {q : Nat}
    (hq : q ≠ a.data) :
    region (array_append a p h).2 q = region h q := by
  show region (writeBytes (array_growIfFull a h).2
    (array_growIfFull a h).1.data
    ((array_growIfFull a h).1.size * (array_growIfFull a h).1.sizeof_element)
    p) q = region h q
  rw [array_growIfFull_data]
  rw [region_writeBytes_ne hq]
  exact array_growIfFull_other hq

theorem array_resize_other {a : Array} {n : Nat} {h : Heap} {q : Nat}
    (hq : q ≠ a.data) :
    region (array_resize a n h).2 q = region h q := by
  unfold array_resize
  split
  · exact region_hrealloc_ne hq
  · rfl

theorem array_shrink_other {a : Array} {h : Heap} {q : Nat}
    (hq : q ≠ a.data) :
    region (array_shrink a h).2 q = region h q := by
  unfold array_shrink
  split
  · rfl
  · exact region_hrealloc_ne hq

theorem array_sort_other {a : Array} {cmp : Bytes → Bytes → Int} {h : Heap}
    {q : Nat} (hq : q ≠ a.data) :
    region (array_sort a cmp h) q = region h q :=
  region_writeBytes_ne hq

theorem array_combine_fold_other (b : Array) (q : Nat) :
    ∀ (l : List Nat) (a : Array) (h : Heap), q ≠ a.data →
    region ((l.foldl (fun st i => array_append st.1
      (readBytes st.2 b.data (i * b.sizeof_element) b.sizeof_element) st.2)
      (a, h)).2) q = region h q := by
  intro l
  induction l with
  | nil => intro a h _; rfl
  | cons x xs ih =>
    intro a h hq
    simp only [List.foldl_cons]
    have h2 : q ≠ (array_append a
        (readBytes h b.data (x * b.sizeof_element) b.sizeof_element)
        h).1.data := by
      show q ≠ (array_growIfFull a h).1.data
      rw [array_growIfFull_data]
      exact hq
    exact (ih (array_append a
        (readBytes h b.data (x * b.sizeof_element) b.sizeof_element) h).1
      (array_append a
        (readBytes h b.data (x * b.sizeof_element) b.sizeof_element) h).2
      h2).trans (array_append_other hq)

theorem array_combine_other {a b : Array} {h : Heap} {q : Nat}
    (hq : q ≠ a.data) :
    region (array_combine a b h).2 q = region h q :=
  array_combine_fold_other b q (List.range b.size) a h hq

/-- C7: Clone returns an Array with identical size, capacity and element
size, whose freshly allocated buffer (a region distinct from the source's)
holds a byte-for-byte copy of the source's logical elements and has the
source's full buffer length; the source's buffer is untouched by the
clone, and thereafter every mutation of the clone (Set, Append, Resize,
Shrink, Sort, Combine) leaves the source's buffer unchanged, and every
mutation of the source leaves the clone's buffer unchanged. -/
theorem claim_C7_clone_independence (a : Array) (h : Heap) (hw : wf a h) :
    (array_clone a h).1.size = a.size ∧
    (array_clone a h).1.capacity = a.capacity ∧
    (array_clone a h).1.sizeof_element = a.sizeof_element ∧
    (array_clone a h).1.data ≠ a.data ∧
    (region (array_clone a h).2 (array_clone a h).1.data).length =
      a.capacity * a.sizeof_element ∧
    readBytes (array_clone a h).2 (array_clone a h).1.data 0
        (a.size * a.sizeof_element) =
      readBytes h a.data 0 (a.size * a.sizeof_element) ∧
    region (array_clone a h).2 a.data = region h a.data ∧
    (∀ i p h2,
      array_set (array_clone a h).1 i p (array_clone a h).2 = some h2 →
      region h2 a.data = region (array_clone a h).2 a.data) ∧
    (∀ p, region (array_append (array_clone a h).1 p (array_clone a h).2).2
        a.data = region (array_clone a h).2 a.data) ∧
    (∀ n, region (array_resize (array_clone a h).1 n (array_clone a h).2).2
        a.data = region (array_clone a h).2 a.data) ∧
    region (array_shrink (array_clone a h).1 (array_clone a h).2).2 a.data =
      region (array_clone a h).2 a.data ∧
    (∀ cmp, region (array_sort (array_clone a h).1 cmp (array_clone a h).2)
        a.data = region (array_clone a h).2 a.data) ∧
    (∀ b2, region (array_combine (array_clone a h).1 b2
        (array_clone a h).2).2 a.data =
      region (array_clone a h).2 a.data) ∧
    (∀ i p h2, array_set a i p (array_clone a h).2 = some h2 →
      region h2 (array_clone a h).1.data =
        region (array_clone a h).2 (array_clone a h).1.data) ∧
    (∀ p, region (array_append a p (array_clone a h).2).2
        (array_clone a h).1.data =
      region (array_clone a h).2 (array_clone a h).1.data) ∧
    (∀ n, region (array_resize a n (array_clone a h).2).2
        (array_clone a h).1.data =
      region (array_clone a h).2 (array_clone a h).1.data) ∧
    region (array_shrink a (array_clone a h).2).2
        (array_clone a h).1.data =
      region (array_clone a h).2 (array_clone a h).1.data ∧
    (∀ cmp, region (array_sort a cmp (array_clone a h).2)
        (array_clone a h).1.data =
      region (array_clone a h).2 (array_clone a h).1.data) ∧
    (∀ b2, region (array_combine a b2 (array_clone a h).2).2
        (array_clone a h).1.data =
      region (array_clone a h).2 (array_clone a h).1.data) := by
  obtain ⟨hd, hr, hsc, hc1, he, hcU⟩ := hw
  have hmle : a.size * a.sizeof_element ≤ a.capacity * a.sizeof_element :=
    Nat.mul_le_mul hsc (Nat.le_refl _)
  have hdat : (array_clone a h).1.data = h.length := rfl
  have hne : (array_clone a h).1.data ≠ a.data := by
    rw [hdat]
    omega
  have hpl : (readBytes h a.data 0 (a.size * a.sizeof_element)).length =
      a.size * a.sizeof_element := by
    rw [readBytes]
    simp only [List.length_take, List.length_drop]
    omega
  have hfresh : region (h ++ [List.replicate (a.capacity * a.sizeof_element) 0])
      h.length = List.replicate (a.capacity * a.sizeof_element) 0 :=
    region_concat_self h _
  have hlenfresh : h.length < (h ++
      [List.replicate (a.capacity * a.sizeof_element) 0]).length := by
    simp
  have hregc : region (array_clone a h).2 h.length =
      writeAt (List.replicate (a.capacity * a.sizeof_element) 0) 0
        (readBytes h a.data 0 (a.size * a.sizeof_element)) := by
    show region (writeBytes
      (h ++ [List.replicate (a.capacity * a.sizeof_element) 0]) h.length 0
      (readBytes h a.data 0 (a.size * a.sizeof_element))) h.length = _
    rw [region_writeBytes_self _ _ hlenfresh, hfresh]
  have hsrc : region (array_clone a h).2 a.data = region h a.data := by
    show region (writeBytes
      (h ++ [List.replicate (a.capacity * a.sizeof_element) 0]) h.length 0
      (readBytes h a.data 0 (a.size * a.sizeof_element))) a.data = _
    rw [region_writeBytes_ne (by omega), region_concat_ne _ (by omega)]
  refine ⟨rfl, rfl, rfl, hne, ?_, ?_, hsrc, ?_, ?_, ?_, ?_, ?_, ?_, ?_, ?_,
    ?_, ?_, ?_, ?_⟩
  · rw [hdat, hregc, writeAt_length (by simp [hpl]; omega)]
    simp
  · rw [hdat]
    apply readBytes_eq_of_getElem2 hpl.symm
    intro j hj
    rw [hregc, writeAt_getElem? _ _ _ _ (by omega), if_neg (by omega),
      if_pos (by omega)]
    congr 1
    omega
  · intro i p h2 hs
    exact array_set_other (by rw [hdat]; omega) hs
  · intro p
    exact array_append_other (by rw [hdat]; omega)
  · intro n
    exact array_resize_other (by rw [hdat]; omega)
  · exact array_shrink_other (by rw [hdat]; omega)
  · intro cmp
    exact array_sort_other (by rw [hdat]; omega)
  · intro b2
    exact array_combine_other (by rw [hdat]; omega)
  · intro i p h2 hs
    exact array_set_other hne hs
  · intro p
    exact array_append_other hne
  · intro n
    exact array_resize_other hne
  · exact array_shrink_other hne
  · intro cmp
    exact array_sort_other hne
  · intro b2
    exact array_combine_other hne

/-- C7 witness: cloning a one-element array on a one-region heap. -/
theorem claim_C7_clone_independence_witness :
    (array_clone ⟨1, 2, 1, 0⟩ [[7, 0]]).1.size = 1 ∧
    (array_clone ⟨1, 2, 1, 0⟩ [[7, 0]]).1.data ≠ 0 ∧
    readBytes (array_clone ⟨1, 2, 1, 0⟩ [[7, 0]]).2
        (array_clone ⟨1, 2, 1, 0⟩ [[7, 0]]).1.data 0 (1 * 1) =
      readBytes [[7, 0]] 0 0 (1 * 1) :=
  ⟨(claim_C7_clone_independence ⟨1, 2, 1, 0⟩ [[7, 0]] (by decide)).1,
   (claim_C7_clone_independence ⟨1, 2, 1, 0⟩ [[7, 0]] (by decide)).2.2.2.1,
   (claim_C7_clone_independence ⟨1, 2, 1, 0⟩ [[7, 0]]
     (by decide)).2.2.2.2.2.1⟩

/-! The iterator. -/

theorem iterRun_exhausted (d off e m : Nat) :
    iterRun ⟨(d, off), (d, off), e⟩ m = List.replicate m none := by
  induction m with
  | zero => rfl
  | succ m ih =>
    show (iterator_next _).1 :: iterRun (iterator_next _).2 m = _
    unfold iterator_next
    rw [if_pos rfl]
    simp only [List.replicate_succ]
    exact congrArg (List.cons none) ih

theorem iterRun_spec (e d : Nat) (he : 0 < e) :
    ∀ (m j n : Nat), j ≤ n →
    iterRun ⟨(d, j * e), (d, n * e), e⟩ m =
      (List.range' j (min m (n - j))).map (fun k => some (d, k * e)) ++
        List.replicate (m - (n - j)) none := by
  intro m
  induction m with
  | zero =>
    intro j n hjn
    simp [iterRun]
  | succ m ih =>
    intro j n hjn
    by_cases hj : j = n
    · subst hj
      rw [iterRun_exhausted]
      simp
    · have hlt : j < n := by omega
      have hme : j * e < n * e := by
        exact Nat.mul_lt_mul_of_lt_of_le hlt (Nat.le_refl e) he
      show (iterator_next _).1 :: iterRun (iterator_next _).2 m = _
      unfold iterator_next
      rw [if_neg (by simp [Prod.ext_iff]; omega)]
      have hstep : j * e + e = (j + 1) * e := (Nat.succ_mul j e).symm
      have hmin : min (m + 1) (n - j) = min m (n - (j + 1)) + 1 := by omega
      have hrep : (m + 1) - (n - j) = m - (n - (j + 1)) := by omega
      rw [hmin, hrep, List.range'_succ, List.map_cons]
      show some (d, j * e) :: iterRun ⟨(d, j * e + e), (d, n * e), e⟩ m = _
      rw [hstep, ih (j + 1) n (by omega)]
      rfl

/-- C9: an Iterator over an Array with `n` logical elements yields, over
any number `m` of successive `iterator_next` calls, exactly `min m n`
non-null pointers — the element pointers in index order, the cursor
advancing by `element_size` each time — followed by null results only, so
every call past the `n`-th is null, unboundedly many times. -/
theorem claim_C9_iterator_yields (a : Array) (m : Nat)
    (he : 0 < a.sizeof_element) :
    iterRun (iterator a) m =
      (List.range (min m a.size)).map
        (fun k => some (a.data, k * a.sizeof_element)) ++
      List.replicate (m - a.size) none := by
  have hr := iterRun_spec a.sizeof_element a.data he m 0 a.size
    (Nat.zero_le _)
  rw [Nat.zero_mul] at hr
  rw [Nat.sub_zero] at hr
  rw [List.range_eq_range']
  exact hr

/-- C9 witness: four calls on an iterator over a two-element array of
element size 1 yield the two element pointers and then nulls. -/
theorem claim_C9_iterator_yields_witness :
    iterRun (iterator ⟨2, 2, 1, 0⟩) 4 =
      (List.range (min 4 2)).map (fun k => some (0, k * 1)) ++
      List.replicate (4 - 2) none :=
  claim_C9_iterator_yields ⟨2, 2, 1, 0⟩ 4 (by decide)

/-! Combine: repeated Append of the other array's elements. -/

theorem array_append_list_append (l₁ l₂ : List Bytes) :
    ∀ (a : Array) (h : Heap),
    array_append_list a h (l₁ ++ l₂) =
      array_append_list (array_append_list a h l₁).1
        (array_append_list a h l₁).2 l₂ := by
  induction l₁ with
  | nil => intro a h; rfl
  | cons p ps ih =>
    intro a h
    show array_append_list (array_append a p h).1 (array_append a p h).2
      (ps ++ l₂) = _
    exact ih (array_append a p h).1 (array_append a p h).2

theorem array_combine_eq_append_list (a b : Array) (h : Heap)
    (hwa : wf a h) (hwb : wf b h) (hne : a.data ≠ b.data)
    (he : b.sizeof_element = a.sizeof_element)
    (hov : a.size + b.size < U32) :
    array_combine a b h =
      array_append_list a h ((List.range b.size).map
        (fun i => readBytes h b.data
          (i * b.sizeof_element) b.sizeof_element)) := by
  obtain ⟨hbd, hbr, hbsc, hbc1, hbe, hbcU⟩ := hwb
  have hchunk : ∀ i, i < b.size →
      (readBytes h b.data (i * b.sizeof_element) b.sizeof_element).length =
        b.sizeof_element := by
    intro i hi
    have h1 : (i + 1) * b.sizeof_element ≤ b.capacity * b.sizeof_element :=
      Nat.mul_le_mul (by omega) (Nat.le_refl _)
    have h2 : i * b.sizeof_element + b.sizeof_element =
        (i + 1) * b.sizeof_element := (Nat.succ_mul _ _).symm
    rw [readBytes]
    simp only [List.length_take, List.length_drop]
    omega
  suffices hgen : ∀ n, n ≤ b.size →
      (List.range n).foldl
        (fun st i => array_append st.1
          (readBytes st.2 b.data (i * b.sizeof_element) b.sizeof_element)
          st.2)
        (a, h) =
      array_append_list a h ((List.range n).map
        (fun i => readBytes h b.data
          (i * b.sizeof_element) b.sizeof_element)) by
    exact hgen b.size (Nat.le_refl _)
  intro n
  induction n with
  | zero => intro _; rfl
  | succ n ih =>
    intro hn
    have hlens : ∀ p ∈ (List.range n).map
        (fun i => readBytes h b.data
          (i * b.sizeof_element) b.sizeof_element),
        p.length = a.sizeof_element := by
      intro p hp
      simp only [List.mem_map, List.mem_range] at hp
      obtain ⟨i, hi, hpi⟩ := hp
      rw [← hpi, hchunk i (by omega), he]
    have hovn : a.size + ((List.range n).map
        (fun i => readBytes h b.data
          (i * b.sizeof_element) b.sizeof_element)).length < U32 := by
      simp only [List.length_map, List.length_range]
      omega
    obtain ⟨_, _, _, _, _, _, _, hother⟩ :=
      array_append_list_spec _ a h hwa hlens hovn
    have hregb : region (array_append_list a h ((List.range n).map
        (fun i => readBytes h b.data
          (i * b.sizeof_element) b.sizeof_element))).2 b.data =
        region h b.data := hother b.data (Ne.symm hne)
    rw [List.range_succ, List.foldl_append, List.map_append,
      array_append_list_append, ih (by omega)]
    simp only [List.foldl_cons, List.foldl_nil, List.map_cons, List.map_nil]
    have hread : readBytes (array_append_list a h ((List.range n).map
        (fun i => readBytes h b.data
          (i * b.sizeof_element) b.sizeof_element))).2 b.data
        (n * b.sizeof_element) b.sizeof_element =
        readBytes h b.data (n * b.sizeof_element) b.sizeof_element := by
      rw [readBytes, readBytes, hregb]
    rw [hread]
    rfl

/-- C8: for Arrays `a` and `b` with the same element size (and disjoint
buffers), Combine leaves `Size(a') = Size(a) + Size(b)`, keeps `a`'s
original elements at indices `[0, Size(a))` unchanged, places `b`'s
logical elements in their original order at indices `[Size(a), Size(a') )`,
and leaves `b`'s buffer unchanged. -/
theorem claim_C8_combine (a b : Array) (h : Heap)
    (hwa : wf a h) (hwb : wf b h) (hne : a.data ≠ b.data)
    (he : b.sizeof_element = a.sizeof_element)
    (hov : a.size + b.size < U32) :
    array_size (array_combine a b h).1 = array_size a + array_size b ∧
    (∀ i, i < a.size →
      readBytes (array_combine a b h).2 a.data (i * a.sizeof_element)
        a.sizeof_element =
      readBytes h a.data (i * a.sizeof_element) a.sizeof_element) ∧
    (∀ j, j < b.size →
      readBytes (array_combine a b h).2 a.data
        ((a.size + j) * a.sizeof_element) a.sizeof_element =
      readBytes h b.data (j * b.sizeof_element) b.sizeof_element) ∧
    region (array_combine a b h).2 b.data = region h b.data := by
  have hbridge := array_combine_eq_append_list a b h hwa hwb hne he hov
  obtain ⟨hbd, hbr, hbsc, hbc1, hbe, hbcU⟩ := hwb
  have hchunk : ∀ i, i < b.size →
      (readBytes h b.data (i * b.sizeof_element) b.sizeof_element).length =
        b.sizeof_element := by
    intro i hi
    have h1 : (i + 1) * b.sizeof_element ≤ b.capacity * b.sizeof_element :=
      Nat.mul_le_mul (by omega) (Nat.le_refl _)
    have h2 : i * b.sizeof_element + b.sizeof_element =
        (i + 1) * b.sizeof_element := (Nat.succ_mul _ _).symm
    rw [readBytes]
    simp only [List.length_take, List.length_drop]
    omega
  have hlens : ∀ p ∈ (List.range b.size).map
      (fun i => readBytes h b.data
        (i * b.sizeof_element) b.sizeof_element),
      p.length = a.sizeof_element := by
    intro p hp
    simp only [List.mem_map, List.mem_range] at hp
    obtain ⟨i, hi, hpi⟩ := hp
    rw [← hpi, hchunk i hi, he]
  have hovn : a.size + ((List.range b.size).map
      (fun i => readBytes h b.data
        (i * b.sizeof_element) b.sizeof_element)).length < U32 := by
    simp only [List.length_map, List.length_range]
    omega
  obtain ⟨hs, _, _, _, _, hpt, hread, hother⟩ :=
    array_append_list_spec _ a h hwa hlens hovn
  rw [hbridge]
  refine ⟨?_, ?_, ?_, hother b.data (Ne.symm hne)⟩
  · show (array_append_list a h _).1.size = a.size + b.size
    rw [hs]
    simp only [List.length_map, List.length_range]
  · intro i hi
    have h1 : (i + 1) * a.sizeof_element ≤ a.size * a.sizeof_element :=
      Nat.mul_le_mul (by omega) (Nat.le_refl _)
    have h2 : i * a.sizeof_element + a.sizeof_element =
        (i + 1) * a.sizeof_element := (Nat.succ_mul _ _).symm
    apply readBytes_congr
    intro j hj1 hj2
    exact hpt j (by omega)
  · intro j hj
    have hr := hread j (by
      simp only [List.length_map, List.length_range]
      exact hj)
    rw [hr]
    rw [List.getD_eq_getElem?_getD, List.getElem?_map,
      List.getElem?_range hj]
    rfl

/-- C8 witness: combining a one-element array with a two-element array of
the same element size. -/
theorem claim_C8_combine_witness :
    array_size (array_combine ⟨1, 2, 1, 0⟩ ⟨2, 2, 1, 1⟩
        [[7, 0], [8, 9]]).1 =
      array_size ⟨1, 2, 1, 0⟩ + array_size ⟨2, 2, 1, 1⟩ ∧
    readBytes (array_combine ⟨1, 2, 1, 0⟩ ⟨2, 2, 1, 1⟩
        [[7, 0], [8, 9]]).2 0 (0 * 1) 1 =
      readBytes [[7, 0], [8, 9]] 0 (0 * 1) 1 ∧
    readBytes (array_combine ⟨1, 2, 1, 0⟩ ⟨2, 2, 1, 1⟩
        [[7, 0], [8, 9]]).2 0 ((1 + 1) * 1) 1 =
      readBytes [[7, 0], [8, 9]] 1 (1 * 1) 1 ∧
    region (array_combine ⟨1, 2, 1, 0⟩ ⟨2, 2, 1, 1⟩
        [[7, 0], [8, 9]]).2 1 = region [[7, 0], [8, 9]] 1 := by
  have hr := claim_C8_combine ⟨1, 2, 1, 0⟩ ⟨2, 2, 1, 1⟩ [[7, 0], [8, 9]]
    (by decide) (by decide) (by decide) (by decide) (by decide)
  exact ⟨hr.1, hr.2.1 0 (by decide), hr.2.2.1 1 (by decide), hr.2.2.2⟩

end Car
